import Mathlib

/-!
Verification of the `youbet-task` repository's core logic.

The repository has two source files of interest:

* `randomDistribute(amount, people)` (reward dialog file): draws `people - 1`
  uniform values in [0, 1), sorts them, prepends 0 and appends 1, takes the
  consecutive differences as fractions, rounds `amount * fraction` to two
  decimals with lodash `_.round`, and finally adds the rounding residual
  `_.round(amount - sum, 2)` to the last entry in place.

* `PullRequestsTable` (`src/pages/pull-request/index.tsx`): pagination state
  with `totalPages = Math.ceil(totalCount / pageSize)` and four page-setting
  buttons.

We embed the numeric code shallowly over exact rationals `ℚ`.  Random draws
are passed explicitly as a list `draws : List ℚ`; for `people ≥ 1` the code
produces `people - 1` draws, and for `people = 0` lodash `_.times(-1, f)`
returns the empty list, so `draws = []` there as well (natural subtraction
`people - 1` captures both cases).  Lodash `_.round (x, 2)` rounds half
toward positive infinity at two decimals, which is Mathlib `round` scaled by
100.
-/

namespace YoubetTask

/-- lodash `_.round(x, 2)`: round to two decimal places, halves toward
positive infinity (`Math.round` semantics, matching Mathlib `round`). -/
def round2 (x : ℚ) : ℚ := ((round (100 * x) : ℤ) : ℚ) / 100

/-- `points.slice(1).map((point, index) => point - points[index])`: the list
of consecutive differences of `l`. -/
def consecDiffs (l : List ℚ) : List ℚ := List.zipWith (fun a b => a - b) l.tail l

/-- The boundary points built by `randomDistribute`:
`points = _.sortBy(draws); points.push(1); points.unshift(0)`. -/
def boundaryPoints (draws : List ℚ) : List ℚ :=
  0 :: (List.insertionSort (fun a b => a ≤ b) draws ++ [1])

/-- The raw rounded shares `amounts` computed before the residual step:
`points.slice(1).map((point, index) => point - points[index]).map((fraction) =>
_.round(amount * fraction, 2))`. -/
def rawShares (amount : ℚ) (draws : List ℚ) : List ℚ :=
  (consecDiffs (boundaryPoints draws)).map (fun fraction => round2 (amount * fraction))

/-- `amounts[amounts.length - 1] += diff`: add `d` to the last entry of `l`
(on the empty list the JS assignment to index `-1` leaves the array empty). -/
def addToLast (l : List ℚ) (d : ℚ) : List ℚ :=
  match l with
  | [] => []
  | [a] => [a + d]
  | a :: b :: t => a :: addToLast (b :: t) d

/-- `randomDistribute(amount, people)` from the reward dialog source, with the
`people - 1` random draws passed explicitly as `draws`. -/
def randomDistribute (amount : ℚ) (draws : List ℚ) : List ℚ :=
  addToLast (rawShares amount draws) (round2 (amount - (rawShares amount draws).sum))

/-- `const pageSize = 10` in `PullRequestsTable`. -/
def pageSize : ℕ := 10

/-- `Math.ceil((data?.pagination.totalCount || 0) / pageSize)` for a natural
`totalCount`. -/
def totalPages (totalCount : ℕ) : ℕ := (totalCount + pageSize - 1) / pageSize

/-- First pagination button: `setPage(1)`. -/
def goFirst : ℤ := 1

/-- Previous pagination button: `setPage((p) => Math.max(1, p - 1))`. -/
def goPrev (p : ℤ) : ℤ := max 1 (p - 1)

/-- Next pagination button: `setPage((p) => Math.min(totalPages, p + 1))`. -/
def goNext (tp p : ℤ) : ℤ := min tp (p + 1)

/-- Last pagination button: `setPage(totalPages)`. -/
def goLast (tp : ℤ) : ℤ := tp

/-! ### Basic lemmas about the embedding -/

theorem round2_cent (x : ℚ) : ∃ k : ℤ, round2 x = (k : ℚ) / 100 :=
  ⟨round (100 * x), rfl⟩

theorem round2_sub_cent (a : ℚ) (k : ℤ) : round2 (a - (k : ℚ) / 100) = round2 a - (k : ℚ) / 100 := by
  unfold round2
  rw [mul_sub, mul_div_cancel₀ (((k : ℚ))) (by norm_num : (100 : ℚ) ≠ 0), round_sub_int]
  push_cast
  ring

theorem round2_nonneg (x : ℚ) (hx : 0 ≤ x) : 0 ≤ round2 x := by
  unfold round2
  have h : (0 : ℤ) ≤ round (100 * x) := by
    rw [round_eq]
    exact Int.le_floor.mpr (by push_cast; linarith)
  positivity

theorem round2_round2 (x : ℚ) : round2 (round2 x) = round2 x := by
  obtain ⟨k, hk⟩ := round2_cent x
  rw [hk]
  unfold round2
  rw [mul_div_cancel₀ (((k : ℚ))) (by norm_num : (100 : ℚ) ≠ 0), round_intCast]

theorem addToLast_length (l : List ℚ) (d : ℚ) : (addToLast l d).length = l.length := by
  induction l with
  | nil => rfl
  | cons a t ih =>
    cases t with
    | nil => rfl
    | cons b t' => simpa [addToLast] using ih

theorem addToLast_sum (l : List ℚ) (d : ℚ) (h : l ≠ []) :
    (addToLast l d).sum = l.sum + d := by
  induction l with
  | nil => exact absurd rfl h
  | cons a t ih =>
    cases t with
    | nil => simp [addToLast]
    | cons b t' =>
      simp only [addToLast, List.sum_cons]
      rw [ih (by simp)]
      simp only [List.sum_cons]
      ring

theorem addToLast_dropLast (l : List ℚ) (d : ℚ) :
    (addToLast l d).dropLast = l.dropLast := by
  induction l with
  | nil => rfl
  | cons a t ih =>
    cases t with
    | nil => rfl
    | cons b t' =>
      have hne : addToLast (b :: t') d ≠ [] := by
        intro hcontra
        have := addToLast_length (b :: t') d
        rw [hcontra] at this
        simp at this
      simp only [addToLast]
      rw [List.dropLast_cons_of_ne_nil hne, List.dropLast_cons_of_ne_nil (by simp), ih]

theorem addToLast_mem (l : List ℚ) (d x : ℚ) (hx : x ∈ addToLast l d) :
    x ∈ l ∨ ∃ y ∈ l, x = y + d := by
  induction l with
  | nil => simp [addToLast] at hx
  | cons a t ih =>
    cases t with
    | nil =>
      simp only [addToLast, List.mem_singleton] at hx
      exact Or.inr ⟨a, by simp, hx⟩
    | cons b t' =>
      simp only [addToLast, List.mem_cons] at hx
      rcases hx with h | h
      · exact Or.inl (by simp [h])
      · rcases ih h with h' | ⟨y, hy, hxy⟩
        · exact Or.inl (List.mem_cons_of_mem a h')
        · exact Or.inr ⟨y, List.mem_cons_of_mem a hy, hxy⟩

theorem boundaryPoints_length (draws : List ℚ) :
    (boundaryPoints draws).length = draws.length + 2 := by
  simp [boundaryPoints, List.length_insertionSort]

theorem consecDiffs_length (l : List ℚ) : (consecDiffs l).length = l.length - 1 := by
  cases l with
  | nil => rfl
  | cons a t => simp [consecDiffs]

theorem rawShares_length (amount : ℚ) (draws : List ℚ) :
    (rawShares amount draws).length = draws.length + 1 := by
  simp [rawShares, consecDiffs_length, boundaryPoints_length]

theorem randomDistribute_length (amount : ℚ) (draws : List ℚ) :
    (randomDistribute amount draws).length = draws.length + 1 := by
  rw [randomDistribute, addToLast_length, rawShares_length]

theorem rawShares_cent (amount : ℚ) (draws : List ℚ) (x : ℚ)
    (hx : x ∈ rawShares amount draws) : ∃ k : ℤ, x = (k : ℚ) / 100 := by
  simp only [rawShares, List.mem_map] at hx
  obtain ⟨f, _, hf⟩ := hx
  exact hf ▸ round2_cent (amount * f)

theorem cent_sum (l : List ℚ) (h : ∀ x ∈ l, ∃ k : ℤ, x = (k : ℚ) / 100) :
    ∃ k : ℤ, l.sum = (k : ℚ) / 100 := by
  induction l with
  | nil => exact ⟨0, by simp⟩
  | cons a t ih =>
    obtain ⟨ka, hka⟩ := h a (by simp)
    obtain ⟨kt, hkt⟩ := ih (fun x hx => h x (List.mem_cons_of_mem a hx))
    refine ⟨ka + kt, ?_⟩
    rw [List.sum_cons, hka, hkt]
    push_cast
    ring

theorem boundaryPoints_sorted (draws : List ℚ) (hd : ∀ x ∈ draws, 0 ≤ x ∧ x < 1) :
    (boundaryPoints draws).Sorted (fun a b => a ≤ b) := by
  unfold boundaryPoints
  rw [List.sorted_cons]
  constructor
  · intro b hb
    rcases List.mem_append.mp hb with h | h
    · exact (hd b ((List.mem_insertionSort _).mp h)).1
    · simp only [List.mem_singleton] at h
      simp [h]
  · rw [List.Sorted, List.pairwise_append]
    refine ⟨List.sorted_insertionSort _ draws, List.pairwise_singleton _ _, ?_⟩
    intro a ha b hb
    simp only [List.mem_singleton] at hb
    subst hb
    exact le_of_lt (hd a ((List.mem_insertionSort _).mp ha)).2

theorem consecDiffs_nonneg (l : List ℚ) :
    l.Sorted (fun a b => a ≤ b) → ∀ x ∈ consecDiffs l, 0 ≤ x := by
  induction l with
  | nil => intro _ x hx; simp [consecDiffs] at hx
  | cons a t ih =>
    intro hl x hx
    cases t with
    | nil => simp [consecDiffs] at hx
    | cons b t' =>
      rw [show consecDiffs (a :: b :: t') = (b - a) :: consecDiffs (b :: t') from rfl] at hx
      rcases List.mem_cons.mp hx with h | h
      · have hab : a ≤ b := (List.sorted_cons.mp hl).1 b (by simp)
        rw [h]
        linarith
      · exact ih (List.sorted_cons.mp hl).2 x h

theorem rawShares_nonneg (amount : ℚ) (draws : List ℚ) (ha : 0 ≤ amount)
    (hd : ∀ x ∈ draws, 0 ≤ x ∧ x < 1) : ∀ x ∈ rawShares amount draws, 0 ≤ x := by
  intro x hx
  simp only [rawShares, List.mem_map] at hx
  obtain ⟨f, hf, hfx⟩ := hx
  have hf0 : 0 ≤ f := consecDiffs_nonneg _ (boundaryPoints_sorted draws hd) f hf
  exact hfx ▸ round2_nonneg _ (mul_nonneg ha hf0)

theorem addToLast_ne_nil (l : List ℚ) (d : ℚ) (h : l ≠ []) : addToLast l d ≠ [] := by
  intro hcontra
  have hlen := addToLast_length l d
  rw [hcontra] at hlen
  exact h (List.eq_nil_of_length_eq_zero hlen.symm)

theorem addToLast_getElem? (l : List ℚ) (d : ℚ) (i : ℕ) (hi : i + 1 < l.length) :
    (addToLast l d)[i]? = l[i]? := by
  induction l generalizing i with
  | nil => simp at hi
  | cons a t ih =>
    cases t with
    | nil => simp at hi
    | cons b t' =>
      cases i with
      | zero =>
        rw [show addToLast (a :: b :: t') d = a :: addToLast (b :: t') d from rfl]
        simp
      | succ j =>
        rw [show addToLast (a :: b :: t') d = a :: addToLast (b :: t') d from rfl,
          List.getElem?_cons_succ, List.getElem?_cons_succ]
        exact ih j (by simpa using Nat.lt_of_succ_lt_succ hi)

theorem addToLast_getLast? (l : List ℚ) (d : ℚ) :
    (addToLast l d).getLast? = l.getLast?.map (fun x => x + d) := by
  induction l with
  | nil => rfl
  | cons a t ih =>
    cases t with
    | nil => rfl
    | cons b t' =>
      obtain ⟨c, t'', hct⟩ : ∃ c t'', addToLast (b :: t') d = c :: t'' := by
        cases h : addToLast (b :: t') d with
        | nil => exact absurd h (addToLast_ne_nil _ d (by simp))
        | cons c t'' => exact ⟨c, t'', rfl⟩
      rw [show addToLast (a :: b :: t') d = a :: addToLast (b :: t') d from rfl, hct,
        List.getLast?_cons_cons, ← hct, ih, List.getLast?_cons_cons]

theorem consecDiffs_getElem? (l : List ℚ) (i : ℕ) (hi : i + 1 < l.length) :
    (consecDiffs l)[i]? = some (l.getD (i + 1) 0 - l.getD i 0) := by
  induction l generalizing i with
  | nil => simp at hi
  | cons a t ih =>
    cases t with
    | nil => simp at hi
    | cons b t' =>
      cases i with
      | zero =>
        rw [show consecDiffs (a :: b :: t') = (b - a) :: consecDiffs (b :: t') from rfl]
        simp
      | succ j =>
        rw [show consecDiffs (a :: b :: t') = (b - a) :: consecDiffs (b :: t') from rfl,
          List.getElem?_cons_succ, ih j (by simpa using Nat.lt_of_succ_lt_succ hi)]
        simp [List.getD_cons_succ]

theorem round2_eq (x : ℚ) : round2 x = ((⌊100 * x + 1/2⌋ : ℤ) : ℚ) / 100 := by
  rw [round2, round_eq]

theorem round2_zero : round2 0 = 0 := by
  simp [round2]

theorem addToLast_zero (l : List ℚ) : addToLast l 0 = l := by
  induction l with
  | nil => rfl
  | cons a t ih =>
    cases t with
    | nil => simp [addToLast]
    | cons b t' =>
      simp only [addToLast]
      rw [ih]

theorem rawShares_nil (a : ℚ) : rawShares a [] = [round2 a] := by
  norm_num [rawShares, boundaryPoints, consecDiffs, List.insertionSort]

theorem randomDistribute_nil (a : ℚ) : randomDistribute a [] = [round2 a] := by
  rw [randomDistribute, rawShares_nil]
  obtain ⟨k, hk⟩ := round2_cent a
  have hdiff : round2 (a - ([round2 a] : List ℚ).sum) = 0 := by
    simp only [List.sum_cons, List.sum_nil, add_zero]
    rw [hk, round2_sub_cent, ← hk, sub_self]
  rw [hdiff, addToLast_zero]

theorem rawShares_ne_nil (a : ℚ) (d : List ℚ) : rawShares a d ≠ [] := by
  intro h
  have hlen := rawShares_length a d
  rw [h] at hlen
  simp at hlen

/-! ### The claims -/

/-- C1: for every amount ≥ 0, count ≥ 1 and draws in [0, 1), the sum of the
entries returned by `randomDistribute`, rounded to 2 decimals, equals the
amount rounded to 2 decimals (in fact the un-rounded sum already equals
`round2 amount`). -/
theorem randomDistribute_sum_round2 (a : ℚ) (d : List ℚ) (ha : 0 ≤ a)
    (hd : ∀ x ∈ d, 0 ≤ x ∧ x < 1) :
    round2 ((randomDistribute a d).sum) = round2 a := by
  obtain ⟨k, hk⟩ := cent_sum (rawShares a d) (fun x hx => rawShares_cent a d x hx)
  have hsum : (randomDistribute a d).sum = round2 a := by
    rw [randomDistribute, addToLast_sum _ _ (rawShares_ne_nil a d), hk, round2_sub_cent]
    ring
  rw [hsum, round2_round2]

theorem randomDistribute_sum_round2_witness :
    (0 : ℚ) ≤ 1/3 ∧ (∀ x ∈ [(1 : ℚ)/2], 0 ≤ x ∧ x < 1) ∧
    round2 ((randomDistribute (1/3) [1/2]).sum) = round2 (1/3) :=
  ⟨by norm_num, by norm_num,
    randomDistribute_sum_round2 (1/3) [1/2] (by norm_num) (by norm_num)⟩

/-- C2 (counterexample): with amount = 1/50 = 0.02 ≥ 0 and draws
[1/4, 1/2, 3/4] ⊆ [0, 1), the vector returned by `randomDistribute` has a
negative entry (the last entry is −0.01), refuting the claim that every
returned entry is ≥ 0. -/
theorem randomDistribute_neg_last_entry :
    (0 : ℚ) ≤ 1/50 ∧ (∀ x ∈ [(1 : ℚ)/4, 1/2, 3/4], 0 ≤ x ∧ x < 1) ∧
    ¬ ∀ x ∈ randomDistribute (1/50) [1/4, 1/2, 3/4], 0 ≤ x := by
  refine ⟨by norm_num, by norm_num, ?_⟩
  intro hall
  have hraw : rawShares (1/50) [1/4, 1/2, 3/4] = [1/100, 1/100, 1/100, 1/100] := by
    norm_num [rawShares, boundaryPoints, consecDiffs, List.insertionSort,
      List.orderedInsert, round2_eq]
  have heval : randomDistribute (1/50) [1/4, 1/2, 3/4] = [1/100, 1/100, 1/100, -1/100] := by
    rw [randomDistribute, hraw]
    norm_num [addToLast, round2_eq]
  rw [heval] at hall
  have hneg := hall (-1/100) (by simp)
  linarith

/-- C2 (amended): for every amount ≥ 0, count ≥ 1 and draws in [0, 1), every
entry of the returned vector except possibly the last one is ≥ 0 (the raw
rounded shares are all non-negative, but the residual added to the last entry
can drive it below zero). -/
theorem randomDistribute_dropLast_nonneg (a : ℚ) (d : List ℚ) (ha : 0 ≤ a)
    (hd : ∀ x ∈ d, 0 ≤ x ∧ x < 1) :
    ∀ x ∈ (randomDistribute a d).dropLast, 0 ≤ x := by
  intro x hx
  rw [randomDistribute, addToLast_dropLast] at hx
  exact rawShares_nonneg a d ha hd x ((List.dropLast_sublist _).subset hx)

theorem randomDistribute_dropLast_nonneg_witness :
    (0 : ℚ) ≤ 1/50 ∧ (∀ x ∈ [(1 : ℚ)/4, 1/2, 3/4], 0 ≤ x ∧ x < 1) ∧
    ∀ x ∈ (randomDistribute (1/50) [1/4, 1/2, 3/4]).dropLast, 0 ≤ x :=
  ⟨by norm_num, by norm_num,
    randomDistribute_dropLast_nonneg (1/50) [1/4, 1/2, 3/4] (by norm_num) (by norm_num)⟩

/-- C3 (counterexample): with count = 0 the lodash call `_.times(-1, ...)`
yields no draws, so the boundary points are [0, 1] exactly as for count = 1:
at amount = 5 the pre-residual share list `rawShares` is the non-empty
[5] and the function returns the well-formed non-empty vector [5], refuting
the claim that count = 0 produces an empty result. -/
theorem count_zero_result_nonempty :
    rawShares 5 [] ≠ [] ∧ randomDistribute 5 [] = [5] := by
  constructor
  · rw [rawShares_nil]
    simp
  · rw [randomDistribute_nil]
    norm_num [round2_eq]

/-- C3 (amended): when called with count = 0 (and any amount ≥ 0), the draw
list is empty and `randomDistribute` behaves exactly like count = 1: the
pre-residual share list is the non-empty [round2 amount], and the returned
vector is [round2 amount], whose length 1 does not match count = 0 — so the
result is non-empty but mis-sized, and a reimplementation should still
reject count < 1. -/
theorem randomDistribute_count_zero (a : ℚ) (ha : 0 ≤ a) :
    rawShares a [] = [round2 a] ∧ randomDistribute a [] = [round2 a] ∧
    (randomDistribute a []).length = 1 :=
  ⟨rawShares_nil a, randomDistribute_nil a, by rw [randomDistribute_nil]; rfl⟩

theorem randomDistribute_count_zero_witness :
    (0 : ℚ) ≤ 5 ∧
    (rawShares 5 [] = [round2 5] ∧ randomDistribute 5 [] = [round2 5] ∧
      (randomDistribute 5 []).length = 1) :=
  ⟨by norm_num, randomDistribute_count_zero 5 (by norm_num)⟩

/-- C4: for every amount ≥ 0, count ≥ 1 and count − 1 draws in [0, 1),
`randomDistribute` returns a vector with exactly count entries. -/
theorem randomDistribute_length_eq_count (a : ℚ) (d : List ℚ) (count : ℕ)
    (hc : 1 ≤ count) (hlen : d.length = count - 1) (ha : 0 ≤ a)
    (hd : ∀ x ∈ d, 0 ≤ x ∧ x < 1) :
    (randomDistribute a d).length = count := by
  rw [randomDistribute_length, hlen]
  omega

theorem randomDistribute_length_eq_count_witness :
    1 ≤ 2 ∧ ([(1 : ℚ)/2]).length = 2 - 1 ∧ (0 : ℚ) ≤ 1 ∧
    (∀ x ∈ [(1 : ℚ)/2], 0 ≤ x ∧ x < 1) ∧
    (randomDistribute 1 [1/2]).length = 2 :=
  ⟨by norm_num, by norm_num, by norm_num, by norm_num,
    randomDistribute_length_eq_count 1 [1/2] 2 (by norm_num) (by norm_num)
      (by norm_num) (by norm_num)⟩

/-- C5: for every amount ≥ 0, `randomDistribute` with count = 1 (hence no
draws) returns the single-entry vector [round2 amount]: the only boundary
pair is (0, 1) and the residual adjustment leaves the single rounded share
unchanged. -/
theorem randomDistribute_single (a : ℚ) (ha : 0 ≤ a) :
    randomDistribute a [] = [round2 a] :=
  randomDistribute_nil a

theorem randomDistribute_single_witness :
    (0 : ℚ) ≤ 7/5 ∧ randomDistribute (7/5) [] = [round2 (7/5)] :=
  ⟨by norm_num, randomDistribute_single (7/5) (by norm_num)⟩

/-- C6: for every count n ≥ 1 and every sequence of n − 1 draws in [0, 1),
`randomDistribute` at amount 0 returns a vector of n zeros. -/
theorem randomDistribute_zero_amount (d : List ℚ) (count : ℕ) (hc : 1 ≤ count)
    (hlen : d.length = count - 1) (hd : ∀ x ∈ d, 0 ≤ x ∧ x < 1) :
    randomDistribute 0 d = List.replicate count 0 := by
  have hcount : count = d.length + 1 := by omega
  subst hcount
  have hraw : rawShares 0 d = List.replicate (d.length + 1) 0 := by
    rw [List.eq_replicate_iff]
    refine ⟨rawShares_length 0 d, fun b hb => ?_⟩
    simp only [rawShares, List.mem_map] at hb
    obtain ⟨f, _, hf⟩ := hb
    rw [← hf, zero_mul, round2_zero]
  rw [randomDistribute, hraw]
  have hsum : (List.replicate (d.length + 1) (0 : ℚ)).sum = 0 := by simp
  rw [hsum, sub_zero, round2_zero, addToLast_zero]

theorem randomDistribute_zero_amount_witness :
    1 ≤ 3 ∧ ([(1 : ℚ)/3, 2/3]).length = 3 - 1 ∧
    (∀ x ∈ [(1 : ℚ)/3, 2/3], 0 ≤ x ∧ x < 1) ∧
    randomDistribute 0 [1/3, 2/3] = List.replicate 3 0 :=
  ⟨by norm_num, by norm_num, by norm_num,
    randomDistribute_zero_amount [1/3, 2/3] 3 (by norm_num) (by norm_num) (by norm_num)⟩

/-- C7: for every amount ≥ 0, count ≥ 1 and count − 1 draws in [0, 1), the
boundary points are the sorted draws with 0 prepended and 1 appended (count
+ 1 points), and the i-th raw share equals
round2 (amount * (p (i+1) − p i)) for every i < count. -/
theorem rawShares_boundary_diff (a : ℚ) (d : List ℚ) (ha : 0 ≤ a)
    (hd : ∀ x ∈ d, 0 ≤ x ∧ x < 1) (i : ℕ) (hi : i < d.length + 1) :
    (boundaryPoints d).length = d.length + 2 ∧
    (rawShares a d)[i]? =
      some (round2 (a * ((boundaryPoints d).getD (i + 1) 0 - (boundaryPoints d).getD i 0))) := by
  refine ⟨boundaryPoints_length d, ?_⟩
  rw [rawShares, List.getElem?_map,
    consecDiffs_getElem? _ i (by rw [boundaryPoints_length]; omega)]
  rfl

theorem rawShares_boundary_diff_witness :
    (0 : ℚ) ≤ 1 ∧ (∀ x ∈ [(1 : ℚ)/2], 0 ≤ x ∧ x < 1) ∧ 0 < ([(1 : ℚ)/2]).length + 1 ∧
    ((boundaryPoints [(1 : ℚ)/2]).length = ([(1 : ℚ)/2]).length + 2 ∧
      (rawShares 1 [(1 : ℚ)/2])[0]? =
        some (round2 (1 * ((boundaryPoints [(1 : ℚ)/2]).getD 1 0 -
          (boundaryPoints [(1 : ℚ)/2]).getD 0 0)))) :=
  ⟨by norm_num, by norm_num, by norm_num,
    rawShares_boundary_diff 1 [1/2] (by norm_num) (by norm_num) 0 (by norm_num)⟩

/-- C8: for every amount ≥ 0, count ≥ 1 and count − 1 draws in [0, 1), the
residual step modifies only the last entry: each entry of index i ≤ count − 2
of the returned vector equals the i-th raw rounded share, and the last
returned entry is the last raw share plus round2 (amount − sum of raw
shares). -/
theorem randomDistribute_residual_frame (a : ℚ) (d : List ℚ) (ha : 0 ≤ a)
    (hd : ∀ x ∈ d, 0 ≤ x ∧ x < 1) :
    (∀ i : ℕ, i + 1 < d.length + 1 → (randomDistribute a d)[i]? = (rawShares a d)[i]?) ∧
    (randomDistribute a d).getLast? =
      ((rawShares a d).getLast?).map (fun x => x + round2 (a - (rawShares a d).sum)) := by
  constructor
  · intro i hi
    rw [randomDistribute]
    exact addToLast_getElem? _ _ i (by rw [rawShares_length]; omega)
  · rw [randomDistribute, addToLast_getLast?]

theorem randomDistribute_residual_frame_witness :
    (0 : ℚ) ≤ 1 ∧ (∀ x ∈ [(1 : ℚ)/2], 0 ≤ x ∧ x < 1) ∧
    ((∀ i : ℕ, i + 1 < ([(1 : ℚ)/2]).length + 1 →
      (randomDistribute 1 [(1 : ℚ)/2])[i]? = (rawShares 1 [(1 : ℚ)/2])[i]?) ∧
    (randomDistribute 1 [(1 : ℚ)/2]).getLast? =
      ((rawShares 1 [(1 : ℚ)/2]).getLast?).map
        (fun x => x + round2 (1 - (rawShares 1 [(1 : ℚ)/2]).sum))) :=
  ⟨by norm_num, by norm_num,
    randomDistribute_residual_frame 1 [1/2] (by norm_num) (by norm_num)⟩

/-- C9: for every amount ≥ 0, count ≥ 1 and count − 1 draws in [0, 1), every
entry of the returned vector is an integer multiple of 0.01 in exact
arithmetic (the last entry is the sum of two 2-decimal-rounded values). -/
theorem randomDistribute_cent_multiple (a : ℚ) (d : List ℚ) (ha : 0 ≤ a)
    (hd : ∀ x ∈ d, 0 ≤ x ∧ x < 1) :
    ∀ x ∈ randomDistribute a d, ∃ k : ℤ, x = (k : ℚ) / 100 := by
  intro x hx
  rcases addToLast_mem _ _ _ hx with h | ⟨y, hy, hxy⟩
  · exact rawShares_cent a d x h
  · obtain ⟨ky, hky⟩ := rawShares_cent a d y hy
    obtain ⟨kd, hkd⟩ := round2_cent (a - (rawShares a d).sum)
    refine ⟨ky + kd, ?_⟩
    rw [hxy, hky, hkd]
    push_cast
    ring

theorem randomDistribute_cent_multiple_witness :
    (0 : ℚ) ≤ 1 ∧ (∀ x ∈ [(1 : ℚ)/2], 0 ≤ x ∧ x < 1) ∧
    ∀ x ∈ randomDistribute 1 [(1 : ℚ)/2], ∃ k : ℤ, x = (k : ℚ) / 100 :=
  ⟨by norm_num, by norm_num,
    randomDistribute_cent_multiple 1 [1/2] (by norm_num) (by norm_num)⟩

/-- C10: in `PullRequestsTable`, whenever totalPages ≥ 1 and the current
page lies in [1, totalPages], each of the four pagination button operations
(go to page 1, go to max 1 (page − 1), go to min totalPages (page + 1), go
to totalPages) yields a page again in [1, totalPages]. -/
theorem pagination_page_in_range (totalCount : ℕ) (p : ℤ)
    (htp : 1 ≤ (totalPages totalCount : ℤ)) (hp1 : 1 ≤ p)
    (hp2 : p ≤ (totalPages totalCount : ℤ)) :
    (1 ≤ goFirst ∧ goFirst ≤ (totalPages totalCount : ℤ)) ∧
    (1 ≤ goPrev p ∧ goPrev p ≤ (totalPages totalCount : ℤ)) ∧
    (1 ≤ goNext (totalPages totalCount) p ∧
      goNext (totalPages totalCount) p ≤ (totalPages totalCount : ℤ)) ∧
    (1 ≤ goLast (totalPages totalCount) ∧
      goLast (totalPages totalCount) ≤ (totalPages totalCount : ℤ)) := by
  unfold goFirst goPrev goNext goLast
  refine ⟨⟨le_refl 1, htp⟩, ⟨le_max_left _ _, max_le htp (by linarith)⟩,
    ⟨le_min htp (by linarith), min_le_left _ _⟩, ⟨htp, le_refl _⟩⟩

theorem pagination_page_in_range_witness :
    1 ≤ (totalPages 25 : ℤ) ∧ 1 ≤ (2 : ℤ) ∧ (2 : ℤ) ≤ (totalPages 25 : ℤ) ∧
    ((1 ≤ goFirst ∧ goFirst ≤ (totalPages 25 : ℤ)) ∧
    (1 ≤ goPrev 2 ∧ goPrev 2 ≤ (totalPages 25 : ℤ)) ∧
    (1 ≤ goNext (totalPages 25) 2 ∧ goNext (totalPages 25) 2 ≤ (totalPages 25 : ℤ)) ∧
    (1 ≤ goLast (totalPages 25) ∧ goLast (totalPages 25) ≤ (totalPages 25 : ℤ))) :=
  ⟨by decide, by decide, by decide,
    pagination_page_in_range 25 2 (by decide) (by decide) (by decide)⟩

end YoubetTask
